import Mathlib

/-!
Verification of the booking-calendar application.

The definitions below are a shallow embedding of the application's source:

* `renderRoomLayout` and its pieces embed the timeline layout pass of
  `BookingCalendar.renderRoomRow` (frontend script): sorting a room's
  bookings by check-in, clipping each booking to the visible window,
  computing whole-day offsets, and greedily packing the bars into lanes
  via the `laneEndOffsets` array.
* `parseDateB24`, `parseIsoDate`, `parseICSDate` embed the three
  date-parsing entry points (`Beds24API.parseDate`, the frontend
  `parseIsoDate`, and the ICS module's `parseICSDate`).
* `determineSourceB24` and `determineSourceICS` embed the two source
  classifiers.
* `updateSelection` embeds the stale-selection clearing step of
  `BookingCalendar.renderCalendar` together with
  `BookingCalendar.getFilteredBookings`.

Times are JavaScript epoch values in milliseconds, modelled as `Int`
(all the arithmetic the code performs on `Date.getTime()` values is
exact integer arithmetic; `Math.floor` / `Math.ceil` / `Math.round` of
an integer ratio are modelled with flooring integer division).
-/

set_option maxHeartbeats 1000000

namespace BookingApp

/-- Milliseconds per day, from `getMsPerDay` (`24 * 60 * 60 * 1000`). -/
def msPerDay : Int := 86400000

/-- A booking of one room, after `normalizeDate` produced its `checkIn`
and `checkOut` epoch times (in ms): the elements of the `roomBookings`
array in `renderRoomRow`.  The payload the layout pass never inspects is
abbreviated to the numeric `id`. -/
structure RB where
  id : Nat
  checkIn : Int
  checkOut : Int
deriving DecidableEq, Repr

/-- One element of the `layoutBookings` array produced by the layout
pass: lane index, whole-day start offset and duration. -/
structure LayoutItem where
  id : Nat
  startOffset : Int
  duration : Int
  laneIndex : Nat
deriving DecidableEq, Repr

/-- `Math.ceil (a / b)` for integer `a` and positive integer `b`. -/
def ceilDiv (a b : Int) : Int := -((-a).fdiv b)

/-- `Math.round (a / b)` for integer `a` and positive integer `b`
(round half toward positive infinity, as JavaScript does). -/
def roundDiv (a b : Int) : Int := (2 * a + b).fdiv (2 * b)

/-- The clipped whole-day start offset of a booking
(`Math.max(0, Math.floor((barStartTime - gridStart) / msPerDay))`). -/
def clippedStart (gridStartTime : Int) (b : RB) : Int :=
  max 0 ((max b.checkIn gridStartTime - gridStartTime).fdiv msPerDay)

/-- The window-clipping and offset computation of `renderRoomRow` for a
single booking.  Returns `none` when the booking is dropped (clipped
interval empty or inverted, start offset beyond the window, or zero
duration), otherwise `some (startOffset, endOffset)`. -/
def clipOffsets (gridStartTime gridEndExclusiveTime totalDays : Int) (b : RB) :
    Option (Int × Int) :=
  let barStartTime := max b.checkIn gridStartTime
  let barEndTime := min b.checkOut gridEndExclusiveTime
  if barEndTime ≤ barStartTime then none
  else
    let startOffset := max 0 ((barStartTime - gridStartTime).fdiv msPerDay)
    if totalDays ≤ startOffset then none
    else
      let rawEndOffset := ceilDiv (barEndTime - gridStartTime) msPerDay
      let endOffset := max startOffset (min totalDays rawEndOffset)
      if endOffset - startOffset ≤ 0 then none
      else some (startOffset, endOffset)

/-- The lane-scan loop of `renderRoomRow`:
`while (laneEndOffsets[laneIndex] !== undefined && laneEndOffsets[laneIndex] > startOffset) laneIndex += 1`.
Returns the first lane whose recorded end offset is at most `s`, or the
index one past the end of the array (`laneEndOffsets` is always dense). -/
def findFreeLane (lanes : List Int) (s : Int) : Nat :=
  match lanes with
  | [] => 0
  | e :: rest => if s < e then findFreeLane rest s + 1 else 0

/-- The lane update `laneEndOffsets[laneIndex] = endOffset`; the index
is always at most the array length, in which case the array grows by
one slot. -/
def updateLane (lanes : List Int) (i : Nat) (e : Int) : List Int :=
  match lanes, i with
  | [], _ => [e]
  | _ :: rest, 0 => e :: rest
  | x :: rest, Nat.succ j => x :: updateLane rest j e

/-- One iteration of the `roomBookings.forEach` body of `renderRoomRow`:
clip the booking, drop it if the clip failed, otherwise assign the first
free lane and append the layout record. -/
def layoutStep (gs ge td : Int) (acc : List Int × List LayoutItem) (b : RB) :
    List Int × List LayoutItem :=
  match clipOffsets gs ge td b with
  | none => acc
  | some (s, e) =>
      let lane := findFreeLane acc.1 s
      (updateLane acc.1 lane e, acc.2 ++ [⟨b.id, s, e - s, lane⟩])

/-- Stable insertion of a booking into a list, keeping it before every
element whose check-in is not strictly earlier. -/
def insertByCheckIn (b : RB) : List RB → List RB
  | [] => [b]
  | x :: xs => if x.checkIn < b.checkIn then x :: insertByCheckIn b xs else b :: x :: xs

/-- The stable sort `.sort((a, b) => a.checkIn - b.checkIn)` of
`renderRoomRow` (JavaScript array sort is stable). -/
def sortByCheckIn : List RB → List RB
  | [] => []
  | x :: xs => insertByCheckIn x (sortByCheckIn xs)

/-- The number of visible days,
`Math.max(0, Math.round((gridEndExclusive - gridStart) / msPerDay))`. -/
def totalDaysOf (gridStartTime gridEndTime : Int) : Int :=
  max 0 (roundDiv (gridEndTime + msPerDay - gridStartTime) msPerDay)

/-- The layout pass of `renderRoomRow` for one room: sort the room's
bookings by check-in, then fold the clip-and-assign step over them.
Returns the final `laneEndOffsets` array and the `layoutBookings`
list. -/
def renderRoomLayout (bookings : List RB) (gridStartTime gridEndTime : Int) :
    List Int × List LayoutItem :=
  (sortByCheckIn bookings).foldl
    (layoutStep gridStartTime (gridEndTime + msPerDay) (totalDaysOf gridStartTime gridEndTime))
    ([], [])

/-- The pixel geometry emitted for one bar (`left`, `width`, `top` in
the `layoutBookings.forEach` loop of `renderRoomRow`). -/
structure Bar where
  item : LayoutItem
  left : Int
  width : Int
  top : Int
deriving DecidableEq, Repr

/-- The geometry pass over the layout result, parameterised by the day
width: `left = startOffset * dayWidth`,
`width = max 0 (duration * dayWidth - 4)`,
`top = baseTop + laneIndex * laneSpacing` with `baseTop = 15`,
`laneSpacing = 38`. -/
def renderBars (bookings : List RB) (gridStartTime gridEndTime dayWidth : Int) :
    List Bar :=
  (renderRoomLayout bookings gridStartTime gridEndTime).2.map fun t =>
    ⟨t, t.startOffset * dayWidth, max 0 (t.duration * dayWidth - 4),
     15 + (t.laneIndex : Int) * 38⟩

/-- The half-open day interval `[startOffset, startOffset + duration)`
of a layout record. -/
def itemEnd (t : LayoutItem) : Int := t.startOffset + t.duration

/-- Whether a layout record's interval covers day offset `p`. -/
def coversDay (t : LayoutItem) (p : Int) : Bool :=
  decide (t.startOffset ≤ p) && decide (p < itemEnd t)

/-- The number of emitted bars whose day intervals cover day offset `p`. -/
def overlapAt (out : List LayoutItem) (p : Int) : Nat :=
  (out.filter (fun t => coversDay t p)).length

/-! ### Calendar arithmetic

`daysFromCivil` / `civilFromDays` are the standard proleptic-Gregorian
conversions between a civil date and a day count since 1970-01-01; they
model the calendar arithmetic JavaScript's `Date.UTC` and the date
accessors perform.  All divisions are flooring, so the functions are
total on `Int`. -/

/-- Day number since 1970-01-01 of the civil date `(y, m, d)`
(month `1`–`12`; months `13`, `14` roll into the next year exactly as
JavaScript's `Date.UTC` normalises them). -/
def daysFromCivil (y m d : Int) : Int :=
  let y2 := if m ≤ 2 then y - 1 else y
  let era := y2.fdiv 400
  let yoe := y2 - era * 400
  let mp := if 2 < m then m - 3 else m + 9
  let doy := (153 * mp + 2).fdiv 5 + d - 1
  let doe := yoe * 365 + yoe.fdiv 4 - yoe.fdiv 100 + doy
  era * 146097 + doe - 719468

/-- Civil date `(y, m, d)` of a day number since 1970-01-01. -/
def civilFromDays (z0 : Int) : Int × Int × Int :=
  let z := z0 + 719468
  let era := z.fdiv 146097
  let doe := z - era * 146097
  let yoe := (doe - doe.fdiv 1460 + doe.fdiv 36524 - doe.fdiv 146096).fdiv 365
  let y := yoe + era * 400
  let doy := doe - (365 * yoe + yoe.fdiv 4 - yoe.fdiv 100)
  let mp := (5 * doy + 2).fdiv 153
  let d := doy - (153 * mp + 2).fdiv 5 + 1
  let m := if mp < 10 then mp + 3 else mp - 9
  (if m ≤ 2 then y + 1 else y, m, d)

/-- Epoch milliseconds of `Date.UTC(y, m - 1, d, hh, mi, ss)` (month
given 1-based here). -/
def utcEpoch (y m d hh mi ss : Int) : Int :=
  daysFromCivil y m d * msPerDay + hh * 3600000 + mi * 60000 + ss * 1000

/-- Numeric value of a decimal digit character. -/
def digitVal (c : Char) : Int := (c.toNat : Int) - 48

/-- Two-digit decimal number. -/
def num2 (a b : Char) : Int := 10 * digitVal a + digitVal b

/-- Four-digit decimal number. -/
def num4 (a b c d : Char) : Int :=
  1000 * digitVal a + 100 * digitVal b + 10 * digitVal c + digitVal d

/-- `Beds24API.parseDate` on a string: if the input matches
`/^\d{4}-\d{2}-\d{2}$/` it returns `new Date(Date.UTC(y, m-1, d, 12, 0, 0))`
— noon UTC, independent of the environment timezone.  A non-matching
string falls through to the generic `new Date(dateString)` parser, which
is outside this model (`none` here). -/
def parseDateB24 (s : List Char) : Option Int :=
  match s with
  | [y1, y2, y3, y4, '-', m1, m2, '-', d1, d2] =>
      if (y1.isDigit && y2.isDigit && y3.isDigit && y4.isDigit &&
          m1.isDigit && m2.isDigit && d1.isDigit && d2.isDigit) then
        some (utcEpoch (num4 y1 y2 y3 y4) (num2 m1 m2) (num2 d1 d2) 12 0 0)
      else none
  | _ => none

/-- `BookingCalendar.parseIsoDate` on a string: the regex
`/^(\d{4})-(\d{2})-(\d{2})/` matches a date-only head (any suffix is
ignored) and the date is created at noon UTC
(`Date.UTC(year, month, day, 12, 0, 0)`).  Inputs not starting with
that shape fall through to the generic `new Date(value)` parser, which
is outside this model (`none` here). -/
def parseIsoDate (s : List Char) : Option Int :=
  match s with
  | y1 :: y2 :: y3 :: y4 :: '-' :: m1 :: m2 :: '-' :: d1 :: d2 :: _ =>
      if (y1.isDigit && y2.isDigit && y3.isDigit && y4.isDigit &&
          m1.isDigit && m2.isDigit && d1.isDigit && d2.isDigit) then
        some (utcEpoch (num4 y1 y2 y3 y4) (num2 m1 m2) (num2 d1 d2) 12 0 0)
      else none
  | _ => none

/-- The ICS module's `parseICSDate`, parameterised by the execution
environment's timezone offset west of UTC in minutes (what JavaScript's
`getTimezoneOffset` reports; daylight-saving shifts are not modelled).
A value of length 8 (`YYYYMMDD`, the date-only case) is built with
`new Date(year, month, day)` — **local midnight**, so its epoch value
shifts with `tzWestMin`.  A longer value (`YYYYMMDDTHHMMSSZ`) is built
with `Date.UTC`, independent of the environment.  Strings with
non-digit content feed `NaN` into the `Date` constructor; that invalid
result is outside this model (`none` here). -/
def parseICSDate (tzWestMin : Int) (s : List Char) : Option Int :=
  match s with
  | [y1, y2, y3, y4, m1, m2, d1, d2] =>
      if (y1.isDigit && y2.isDigit && y3.isDigit && y4.isDigit &&
          m1.isDigit && m2.isDigit && d1.isDigit && d2.isDigit) then
        some (utcEpoch (num4 y1 y2 y3 y4) (num2 m1 m2) (num2 d1 d2) 0 0 0 +
              tzWestMin * 60000)
      else none
  | y1 :: y2 :: y3 :: y4 :: m1 :: m2 :: d1 :: d2 :: _ :: h1 :: h2 :: i1 :: i2 :: s1 :: s2 :: _ =>
      if (y1.isDigit && y2.isDigit && y3.isDigit && y4.isDigit &&
          m1.isDigit && m2.isDigit && d1.isDigit && d2.isDigit &&
          h1.isDigit && h2.isDigit && i1.isDigit && i2.isDigit &&
          s1.isDigit && s2.isDigit) then
        some (utcEpoch (num4 y1 y2 y3 y4) (num2 m1 m2) (num2 d1 d2)
              (num2 h1 h2) (num2 i1 i2) (num2 s1 s2))
      else none
  | _ => none

/-- The civil date an epoch value displays as in an environment whose
timezone offset is `tzWestMin` minutes west of UTC (what
`toLocaleDateString` renders). -/
def displayedDate (tzWestMin epochMs : Int) : Int × Int × Int :=
  civilFromDays ((epochMs - tzWestMin * 60000).fdiv msPerDay)

/-! ### Source classification -/

/-- JavaScript `a || b` on strings (empty string is falsy). -/
def jsOr (a b : List Char) : List Char := if a = [] then b else a

/-- `String.prototype.toLowerCase` (ASCII suffices for the keywords the
classifiers look for). -/
def toLowerStr (s : List Char) : List Char := s.map Char.toLower

/-- Whether `hay` starts with `needle`. -/
def beginsWith : List Char → List Char → Bool
  | [], _ => true
  | _ :: _, [] => false
  | n :: ns, h :: hs => n == h && beginsWith ns hs

/-- JavaScript `hay.includes(needle)`. -/
def hasSeg (needle : List Char) : List Char → Bool
  | [] => needle.isEmpty
  | h :: t => beginsWith needle (h :: t) || hasSeg needle t

/-- The raw text fields `Beds24API.determineSource` inspects; an absent
(`undefined`/`null`) field and the empty string behave identically under
`||`, so both are modelled as `[]`. -/
structure RawSourceFields where
  referer : List Char
  channel : List Char
  source : List Char
  bookingSource : List Char
deriving DecidableEq, Repr

/-- `Beds24API.determineSource`: keyword scan for known platforms, then
the direct-channel checks, then the raw lowercase source / referer text,
defaulting to `"direct"`. -/
def determineSourceB24 (b : RawSourceFields) : List Char :=
  let referer := toLowerStr (jsOr b.referer b.channel)
  let source := toLowerStr (jsOr b.source b.bookingSource)
  let channel := toLowerStr b.channel
  if hasSeg ('a' :: 'i' :: 'r' :: 'b' :: 'n' :: 'b' :: []) referer ||
     hasSeg ('a' :: 'i' :: 'r' :: 'b' :: 'n' :: 'b' :: []) source then
    'a' :: 'i' :: 'r' :: 'b' :: 'n' :: 'b' :: []
  else if hasSeg ('b' :: 'o' :: 'o' :: 'k' :: 'i' :: 'n' :: 'g' :: []) referer ||
          hasSeg ('b' :: 'o' :: 'o' :: 'k' :: 'i' :: 'n' :: 'g' :: []) source then
    'b' :: 'o' :: 'o' :: 'k' :: 'i' :: 'n' :: 'g' :: []
  else if hasSeg ('e' :: 'x' :: 'p' :: 'e' :: 'd' :: 'i' :: 'a' :: []) referer ||
          hasSeg ('e' :: 'x' :: 'p' :: 'e' :: 'd' :: 'i' :: 'a' :: []) source then
    'e' :: 'x' :: 'p' :: 'e' :: 'd' :: 'i' :: 'a' :: []
  else if channel = 'd' :: 'i' :: 'r' :: 'e' :: 'c' :: 't' :: [] ||
          hasSeg ('d' :: 'i' :: 'r' :: 'e' :: 'c' :: 't' :: []) referer ||
          hasSeg ('d' :: 'i' :: 'r' :: 'e' :: 'c' :: 't' :: []) source ||
          hasSeg ('p' :: 'a' :: 'v' :: 'l' :: 'o' :: 's' :: 'o' :: 'l' :: []) referer ||
          hasSeg ('a' :: 'p' :: 'p' :: []) referer ||
          hasSeg ('w' :: 'e' :: 'b' :: 's' :: 'i' :: 't' :: 'e' :: []) channel then
    'd' :: 'i' :: 'r' :: 'e' :: 'c' :: 't' :: []
  else
    jsOr source (jsOr referer ('d' :: 'i' :: 'r' :: 'e' :: 'c' :: 't' :: []))

/-- The fields of an ICS event the ICS module's `determineSource`
inspects (absent fields behave as the empty string under `|| ''`). -/
structure ICSEvent where
  summary : List Char
  description : List Char
  uid : List Char
deriving DecidableEq, Repr

/-- The ICS module's `determineSource`: `"airbnb"` if any field mentions
airbnb, else `"booking"` if any field mentions booking, else the
`"airbnb"` default. -/
def determineSourceICS (e : ICSEvent) : List Char :=
  let s := toLowerStr e.summary
  let d := toLowerStr e.description
  let u := toLowerStr e.uid
  if hasSeg ('a' :: 'i' :: 'r' :: 'b' :: 'n' :: 'b' :: []) s ||
     hasSeg ('a' :: 'i' :: 'r' :: 'b' :: 'n' :: 'b' :: []) d ||
     hasSeg ('a' :: 'i' :: 'r' :: 'b' :: 'n' :: 'b' :: []) u then
    'a' :: 'i' :: 'r' :: 'b' :: 'n' :: 'b' :: []
  else if hasSeg ('b' :: 'o' :: 'o' :: 'k' :: 'i' :: 'n' :: 'g' :: []) s ||
          hasSeg ('b' :: 'o' :: 'o' :: 'k' :: 'i' :: 'n' :: 'g' :: []) d ||
          hasSeg ('b' :: 'o' :: 'o' :: 'k' :: 'i' :: 'n' :: 'g' :: []) u then
    'b' :: 'o' :: 'o' :: 'k' :: 'i' :: 'n' :: 'g' :: []
  else
    'a' :: 'i' :: 'r' :: 'b' :: 'n' :: 'b' :: []

/-! ### Selection state -/

/-- A booking as seen by `getFilteredBookings` and the selection check:
its string id and source label. -/
structure FBooking where
  id : List Char
  source : List Char
deriving DecidableEq, Repr

/-- `BookingCalendar.getFilteredBookings`: everything when the filter is
`'all'`, otherwise only bookings whose source equals the filter. -/
def getFilteredBookings (filt : List Char) (bs : List FBooking) : List FBooking :=
  bs.filter fun b =>
    filt == 'a' :: 'l' :: 'l' :: [] || b.source == filt

/-- The stale-selection check at the top of
`BookingCalendar.renderCalendar`: a truthy (non-null, non-empty)
selected id that no longer occurs among the filtered bookings is reset
to `null`; otherwise it is kept unchanged. -/
def updateSelection (sel : Option (List Char)) (filt : List Char)
    (bs : List FBooking) : Option (List Char) :=
  match sel with
  | none => none
  | some s =>
      if s ≠ [] ∧ ¬ (getFilteredBookings filt bs).any (fun b => b.id == s) then
        none
      else some s

/-- `BookingCalendar.selectBookingById`: a falsy (empty) id or an id
matching no booking leaves the selection unchanged; otherwise the
selection becomes that booking's id. -/
def selectBookingById (sel : Option (List Char)) (bs : List FBooking)
    (bookingId : List Char) : Option (List Char) :=
  if bookingId = [] then sel
  else
    match bs.find? (fun b => b.id == bookingId) with
    | none => sel
    | some b => some b.id

/-! ## Lane-array lemmas -/

/-- The lane scan never runs past the end of the dense array. -/
theorem findFreeLane_le (lanes : List Int) (s : Int) :
    findFreeLane lanes s ≤ lanes.length := by
  induction lanes with
  | nil => simp [findFreeLane]
  | cons e rest ih =>
      simp only [findFreeLane, List.length_cons]
      split
      · omega
      · omega

/-- Every lane skipped by the scan is still busy at offset `s`. -/
theorem findFreeLane_busy (lanes : List Int) (s : Int) :
    ∀ i : Nat, i < findFreeLane lanes s → s < lanes.getD i 0 := by
  induction lanes with
  | nil => simp [findFreeLane]
  | cons e rest ih =>
      intro i hi
      simp only [findFreeLane] at hi
      split at hi
      · cases i with
        | zero => simpa
        | succ j => simpa using ih j (by omega)
      · omega

/-- When the scan stops inside the array, the chosen lane is free. -/
theorem findFreeLane_free (lanes : List Int) (s : Int) :
    findFreeLane lanes s < lanes.length →
    lanes.getD (findFreeLane lanes s) 0 ≤ s := by
  induction lanes with
  | nil => intro h; simp [findFreeLane] at h
  | cons e rest ih =>
      intro h
      simp only [findFreeLane] at h ⊢
      by_cases hs : s < e
      · rw [if_pos hs] at h ⊢
        simp only [List.length_cons] at h
        simpa using ih (by omega)
      · rw [if_neg hs]
        simpa using not_lt.mp hs

/-- Updating an existing slot keeps the array length. -/
theorem updateLane_length_of_lt (lanes : List Int) (i : Nat) (e : Int)
    (h : i < lanes.length) :
    (updateLane lanes i e).length = lanes.length := by
  induction lanes generalizing i with
  | nil => simp at h
  | cons x rest ih =>
      cases i with
      | zero => simp [updateLane]
      | succ j =>
          simp only [updateLane, List.length_cons]
          rw [ih j (by simpa using h)]

/-- Writing one slot past the end grows the array by one. -/
theorem updateLane_length_self (lanes : List Int) (e : Int) :
    (updateLane lanes lanes.length e).length = lanes.length + 1 := by
  induction lanes with
  | nil => simp [updateLane]
  | cons x rest ih => simpa [updateLane] using ih

/-- The written slot holds the written value. -/
theorem updateLane_getD_self (lanes : List Int) (i : Nat) (e : Int)
    (h : i ≤ lanes.length) :
    (updateLane lanes i e).getD i 0 = e := by
  induction lanes generalizing i with
  | nil =>
      have hi : i = 0 := by simpa using h
      subst hi
      simp [updateLane]
  | cons x rest ih =>
      cases i with
      | zero => simp [updateLane]
      | succ j =>
          simp only [updateLane, List.getD_cons_succ]
          exact ih j (by simpa using h)

/-- Other slots are untouched by the write. -/
theorem updateLane_getD_of_ne (lanes : List Int) (i j : Nat) (e : Int)
    (hne : j ≠ i) (hj : j < lanes.length) :
    (updateLane lanes i e).getD j 0 = lanes.getD j 0 := by
  induction lanes generalizing i j with
  | nil => simp at hj
  | cons x rest ih =>
      cases i with
      | zero =>
          cases j with
          | zero => exact absurd rfl hne
          | succ k => simp [updateLane]
      | succ i' =>
          cases j with
          | zero => simp [updateLane]
          | succ k =>
              simp only [updateLane, List.getD_cons_succ]
              exact ih i' k (by omega) (by simpa using hj)

/-! ## Overlap-counting lemmas -/

/-- Overlap counts add across list concatenation. -/
theorem overlapAt_append (l₁ l₂ : List LayoutItem) (p : Int) :
    overlapAt (l₁ ++ l₂) p = overlapAt l₁ p + overlapAt l₂ p := by
  simp [overlapAt, List.filter_append]

/-- If all emitted bars sit in lanes below `lanes.length` and bars in a
common lane never intersect, then no day offset is covered by more than
`lanes.length` bars. -/
theorem overlap_le_of_inv {lanes : List Int} {out : List LayoutItem}
    (laneLt : ∀ t ∈ out, t.laneIndex < lanes.length)
    (disj : out.Pairwise (fun a b => a.laneIndex = b.laneIndex →
      itemEnd a ≤ b.startOffset ∨ itemEnd b ≤ a.startOffset))
    (p : Int) : overlapAt out p ≤ lanes.length := by
  classical
  set fl := out.filter (fun t => coversDay t p) with hfl
  have hcov : ∀ t ∈ fl, t.startOffset ≤ p ∧ p < itemEnd t := by
    intro t ht
    have := (List.mem_filter.mp ht).2
    simpa [coversDay] using this
  have hsub : ∀ t ∈ fl, t ∈ out := fun t ht => (List.mem_filter.mp ht).1
  have hpw : fl.Pairwise (fun a b => a.laneIndex ≠ b.laneIndex) := by
    refine (disj.filter _).imp_of_mem ?_
    intro a b ha hb hab heq
    rcases hab heq with h | h
    · exact absurd ((hcov a ha).2.trans_le (h.trans (hcov b hb).1)) (lt_irrefl p)
    · exact absurd ((hcov b hb).2.trans_le (h.trans (hcov a ha).1)) (lt_irrefl p)
  have hnd : (fl.map LayoutItem.laneIndex).Nodup := List.pairwise_map.mpr hpw
  have hsubset : (fl.map LayoutItem.laneIndex).toFinset ⊆ Finset.range lanes.length := by
    intro i hi
    rw [List.mem_toFinset, List.mem_map] at hi
    obtain ⟨t, ht, rfl⟩ := hi
    exact Finset.mem_range.mpr (laneLt t (hsub t ht))
  have hcard : (fl.map LayoutItem.laneIndex).toFinset.card ≤ lanes.length := by
    simpa using Finset.card_le_card hsubset
  have hlen : (fl.map LayoutItem.laneIndex).toFinset.card =
      (fl.map LayoutItem.laneIndex).length := List.toFinset_card_of_nodup hnd
  have : overlapAt out p = fl.length := rfl
  rw [this]
  calc fl.length = (fl.map LayoutItem.laneIndex).length := (List.length_map _ _).symm
    _ = (fl.map LayoutItem.laneIndex).toFinset.card := hlen.symm
    _ ≤ lanes.length := hcard

/-- If every lane index below `n` has a bar covering `p`, at least `n`
bars cover `p`. -/
theorem le_overlap_of_wit {out : List LayoutItem} {p : Int} {n : Nat}
    (h : ∀ i, i < n → ∃ t ∈ out, t.laneIndex = i ∧ coversDay t p = true) :
    n ≤ overlapAt out p := by
  classical
  set fl := out.filter (fun t => coversDay t p) with hfl
  have hsubset : Finset.range n ⊆ (fl.map LayoutItem.laneIndex).toFinset := by
    intro i hi
    obtain ⟨t, htmem, hti, htc⟩ := h i (Finset.mem_range.mp hi)
    rw [List.mem_toFinset, List.mem_map]
    exact ⟨t, List.mem_filter.mpr ⟨htmem, htc⟩, hti⟩
  calc n = (Finset.range n).card := (Finset.card_range n).symm
    _ ≤ (fl.map LayoutItem.laneIndex).toFinset.card := Finset.card_le_card hsubset
    _ ≤ (fl.map LayoutItem.laneIndex).length := List.toFinset_card_le _
    _ = fl.length := List.length_map _ _
    _ = overlapAt out p := rfl

/-! ## Clipping lemmas -/

/-- A surviving clip starts at the clipped start offset and is a
non-empty interval. -/
theorem clipOffsets_eq_some {gs ge td : Int} {b : RB} {s e : Int}
    (h : clipOffsets gs ge td b = some (s, e)) :
    s = clippedStart gs b ∧ s < e := by
  unfold clipOffsets at h
  dsimp only at h
  split at h
  · exact absurd h (by simp)
  · split at h
    · exact absurd h (by simp)
    · split at h
      · exact absurd h (by simp)
      · rename_i hdur
        simp only [Option.some.injEq, Prod.mk.injEq] at h
        obtain ⟨hs, he⟩ := h
        subst hs
        subst he
        exact ⟨rfl, by omega⟩

/-- Later check-ins clip to later (or equal) start offsets. -/
theorem clippedStart_mono {gs : Int} {a b : RB} (h : a.checkIn ≤ b.checkIn) :
    clippedStart gs a ≤ clippedStart gs b := by
  unfold clippedStart
  have hd : (0 : Int) ≤ msPerDay := by norm_num [msPerDay]
  rw [Int.fdiv_eq_ediv _ hd, Int.fdiv_eq_ediv _ hd]
  have h1 : max a.checkIn gs - gs ≤ max b.checkIn gs - gs := by
    have := max_le_max h (le_refl gs)
    omega
  exact max_le_max (le_refl 0)
    (Int.ediv_le_ediv (by norm_num [msPerDay]) h1)

/-- Clipped start offsets are never negative. -/
theorem clippedStart_nonneg (gs : Int) (b : RB) : 0 ≤ clippedStart gs b :=
  le_max_left _ _

/-! ## The layout invariant -/

/-- Invariant carried through the `roomBookings.forEach` fold of
`renderRoomRow`.  `lanes` is the current `laneEndOffsets` array, `out`
the emitted `layoutBookings`, and `m` an upper bound on the start
offsets emitted so far (the fold processes bookings in nondecreasing
clipped-start order). -/
structure LayoutInv (lanes : List Int) (out : List LayoutItem) (m : Int) : Prop where
  laneLt : ∀ t ∈ out, t.laneIndex < lanes.length
  endLe : ∀ t ∈ out, itemEnd t ≤ lanes.getD t.laneIndex 0
  durPos : ∀ t ∈ out, 0 < t.duration
  startLe : ∀ t ∈ out, t.startOffset ≤ m
  laneWit : ∀ i, i < lanes.length → ∃ t ∈ out, t.laneIndex = i ∧ itemEnd t = lanes.getD i 0
  disj : out.Pairwise (fun a b => a.laneIndex = b.laneIndex →
    itemEnd a ≤ b.startOffset ∨ itemEnd b ≤ a.startOffset)
  reach : ∃ p : Int, overlapAt out p = lanes.length

/-- The invariant holds for the empty initial state. -/
theorem layoutInv_init (m : Int) : LayoutInv [] [] m := by
  refine ⟨?_, ?_, ?_, ?_, ?_, ?_, ?_⟩
  · simp
  · simp
  · simp
  · simp
  · simp
  · exact List.Pairwise.nil
  · exact ⟨0, rfl⟩

/-- One fold step preserves the invariant, with the bound advanced to
the processed booking's clipped start. -/
theorem layoutStep_inv (gs ge td : Int) {lanes : List Int}
    {out : List LayoutItem} {m : Int} {b : RB}
    (inv : LayoutInv lanes out m) (hm : m ≤ clippedStart gs b) :
    LayoutInv (layoutStep gs ge td (lanes, out) b).1
      (layoutStep gs ge td (lanes, out) b).2 (clippedStart gs b) := by
  rcases hclip : clipOffsets gs ge td b with _ | ⟨s, e⟩
  · simp only [layoutStep, hclip]
    exact ⟨inv.laneLt, inv.endLe, inv.durPos,
      fun t ht => le_trans (inv.startLe t ht) hm, inv.laneWit, inv.disj, inv.reach⟩
  · obtain ⟨hs, hse⟩ := clipOffsets_eq_some hclip
    simp only [layoutStep, hclip]
    rw [← hs]
    set k := findFreeLane lanes s with hk
    set T : LayoutItem := ⟨b.id, s, e - s, k⟩ with hT
    have hkle : k ≤ lanes.length := findFreeLane_le lanes s
    have hbusy : ∀ i, i < k → s < lanes.getD i 0 := findFreeLane_busy lanes s
    have hms : m ≤ s := by rw [hs]; exact hm
    have hstartle : ∀ t ∈ out, t.startOffset ≤ s :=
      fun t ht => le_trans (inv.startLe t ht) hms
    have hTend : itemEnd T = e := by
      show s + (e - s) = e
      omega
    have hTl : T.laneIndex = k := rfl
    rcases lt_or_eq_of_le hkle with hklt | hkeq
    · -- the booking is placed in an existing free lane
      have hfree : lanes.getD k 0 ≤ s := findFreeLane_free lanes s hklt
      have hlen : (updateLane lanes k e).length = lanes.length :=
        updateLane_length_of_lt lanes k e hklt
      have hgetk : (updateLane lanes k e).getD k 0 = e :=
        updateLane_getD_self lanes k e hkle
      have hgetne : ∀ j, j ≠ k → j < lanes.length →
          (updateLane lanes k e).getD j 0 = lanes.getD j 0 :=
        fun j hne hj => updateLane_getD_of_ne lanes k j e hne hj
      have laneLt' : ∀ t ∈ out ++ [T], t.laneIndex < (updateLane lanes k e).length := by
        intro t ht
        rw [hlen]
        rcases List.mem_append.mp ht with h | h
        · exact inv.laneLt t h
        · simp only [List.mem_singleton] at h
          subst h
          exact hklt
      have disj' : (out ++ [T]).Pairwise (fun a c => a.laneIndex = c.laneIndex →
          itemEnd a ≤ c.startOffset ∨ itemEnd c ≤ a.startOffset) := by
        rw [List.pairwise_append]
        refine ⟨inv.disj, List.pairwise_singleton _ _, ?_⟩
        intro a ha t ht
        simp only [List.mem_singleton] at ht
        subst ht
        intro hlane
        left
        calc itemEnd a ≤ lanes.getD a.laneIndex 0 := inv.endLe a ha
          _ = lanes.getD k 0 := by rw [hlane]
          _ ≤ s := hfree
      refine ⟨laneLt', ?_, ?_, ?_, ?_, disj', ?_⟩
      · intro t ht
        rcases List.mem_append.mp ht with h | h
        · by_cases hl : t.laneIndex = k
          · rw [hl, hgetk]
            calc itemEnd t ≤ lanes.getD t.laneIndex 0 := inv.endLe t h
              _ = lanes.getD k 0 := by rw [hl]
              _ ≤ s := hfree
              _ ≤ e := le_of_lt hse
          · rw [hgetne t.laneIndex hl (inv.laneLt t h)]
            exact inv.endLe t h
        · simp only [List.mem_singleton] at h
          subst h
          rw [hTend, hgetk]
      · intro t ht
        rcases List.mem_append.mp ht with h | h
        · exact inv.durPos t h
        · simp only [List.mem_singleton] at h
          subst h
          simp [hT]
          omega
      · intro t ht
        rcases List.mem_append.mp ht with h | h
        · exact hstartle t h
        · simp only [List.mem_singleton] at h
          subst h
          simp [hT]
      · intro i hi
        rw [hlen] at hi
        by_cases hik : i = k
        · subst hik
          exact ⟨T, List.mem_append_right _ (List.mem_singleton_self _),
            rfl, by rw [hTend, hgetk]⟩
        · obtain ⟨t, htmem, hti, hte⟩ := inv.laneWit i hi
          exact ⟨t, List.mem_append_left _ htmem, hti,
            by rw [hte, hgetne i hik hi]⟩
      · obtain ⟨p, hp⟩ := inv.reach
        have hub := @overlap_le_of_inv (updateLane lanes k e) (out ++ [T]) laneLt' disj' p
        rw [hlen] at hub
        have hlb : overlapAt out p ≤ overlapAt (out ++ [T]) p := by
          rw [overlapAt_append]
          omega
        exact ⟨p, by rw [hlen]; omega⟩
    · -- all lanes are busy: a new lane is opened at index `lanes.length`
      have hlen : (updateLane lanes k e).length = lanes.length + 1 := by
        rw [hkeq]
        exact updateLane_length_self lanes e
      have hgetk : (updateLane lanes k e).getD k 0 = e :=
        updateLane_getD_self lanes k e hkle
      have hgetne : ∀ j, j < lanes.length →
          (updateLane lanes k e).getD j 0 = lanes.getD j 0 := by
        intro j hj
        exact updateLane_getD_of_ne lanes k j e (by omega) hj
      have laneLt' : ∀ t ∈ out ++ [T], t.laneIndex < (updateLane lanes k e).length := by
        intro t ht
        rw [hlen]
        rcases List.mem_append.mp ht with h | h
        · exact lt_trans (inv.laneLt t h) (by omega)
        · simp only [List.mem_singleton] at h
          subst h
          have hTl : T.laneIndex = k := rfl
          omega
      have disj' : (out ++ [T]).Pairwise (fun a c => a.laneIndex = c.laneIndex →
          itemEnd a ≤ c.startOffset ∨ itemEnd c ≤ a.startOffset) := by
        rw [List.pairwise_append]
        refine ⟨inv.disj, List.pairwise_singleton _ _, ?_⟩
        intro a ha t ht
        simp only [List.mem_singleton] at ht
        subst ht
        intro hlane
        exact absurd (hlane ▸ inv.laneLt a ha) (by omega)
      refine ⟨laneLt', ?_, ?_, ?_, ?_, disj', ?_⟩
      · intro t ht
        rcases List.mem_append.mp ht with h | h
        · have hne : t.laneIndex ≠ k := by
            have := inv.laneLt t h
            omega
          rw [hgetne t.laneIndex (inv.laneLt t h)]
          exact inv.endLe t h
        · simp only [List.mem_singleton] at h
          subst h
          rw [hTend, hgetk]
      · intro t ht
        rcases List.mem_append.mp ht with h | h
        · exact inv.durPos t h
        · simp only [List.mem_singleton] at h
          subst h
          simp [hT]
          omega
      · intro t ht
        rcases List.mem_append.mp ht with h | h
        · exact hstartle t h
        · simp only [List.mem_singleton] at h
          subst h
          simp [hT]
      · intro i hi
        rw [hlen] at hi
        by_cases hik : i = k
        · subst hik
          exact ⟨T, List.mem_append_right _ (List.mem_singleton_self _),
            rfl, by rw [hTend, hgetk]⟩
        · have hilt : i < lanes.length := by omega
          obtain ⟨t, htmem, hti, hte⟩ := inv.laneWit i hilt
          exact ⟨t, List.mem_append_left _ htmem, hti,
            by rw [hte, hgetne i hilt]⟩
      · have hub := @overlap_le_of_inv (updateLane lanes k e) (out ++ [T]) laneLt' disj' s
        rw [hlen] at hub
        refine ⟨s, le_antisymm (by rw [hlen]; exact hub) ?_⟩
        rw [hlen]
        apply le_overlap_of_wit
        intro i hi
        by_cases hik : i = k
        · subst hik
          refine ⟨T, List.mem_append_right _ (List.mem_singleton_self _), rfl, ?_⟩
          simp only [coversDay, hTend, Bool.and_eq_true, decide_eq_true_eq]
          constructor
          · simp [hT]
          · simpa [hT] using hse
        · have hilt : i < lanes.length := by omega
          obtain ⟨t, htmem, hti, hte⟩ := inv.laneWit i hilt
          refine ⟨t, List.mem_append_left _ htmem, hti, ?_⟩
          simp only [coversDay, Bool.and_eq_true, decide_eq_true_eq]
          refine ⟨hstartle t htmem, ?_⟩
          rw [hte]
          exact hbusy i (by omega)

/-- Folding the layout step over a list of bookings sorted by check-in
preserves the invariant. -/
theorem foldl_layoutStep_inv (gs ge td : Int) :
    ∀ (bs : List RB) (lanes : List Int) (out : List LayoutItem) (m : Int),
      LayoutInv lanes out m →
      (∀ b ∈ bs, m ≤ clippedStart gs b) →
      bs.Pairwise (fun a c => a.checkIn ≤ c.checkIn) →
      ∃ m', LayoutInv (bs.foldl (layoutStep gs ge td) (lanes, out)).1
        (bs.foldl (layoutStep gs ge td) (lanes, out)).2 m' := by
  intro bs
  induction bs with
  | nil => exact fun lanes out m inv _ _ => ⟨m, inv⟩
  | cons b rest ih =>
      intro lanes out m inv hm hsorted
      rw [List.foldl_cons]
      have inv' := layoutStep_inv gs ge td inv (hm b (List.mem_cons_self b rest))
      rw [List.pairwise_cons] at hsorted
      have hm' : ∀ b' ∈ rest, clippedStart gs b ≤ clippedStart gs b' :=
        fun b' hb' => clippedStart_mono (hsorted.1 b' hb')
      have := ih (layoutStep gs ge td (lanes, out) b).1
        (layoutStep gs ge td (lanes, out) b).2 (clippedStart gs b) inv' hm' hsorted.2
      simpa using this

/-! ## Sorting lemmas -/

/-- Membership in the stable insertion. -/
theorem mem_insertByCheckIn {y b : RB} :
    ∀ {l : List RB}, y ∈ insertByCheckIn b l ↔ y = b ∨ y ∈ l := by
  intro l
  induction l with
  | nil => simp [insertByCheckIn]
  | cons x xs ih =>
      simp only [insertByCheckIn]
      split
      · rw [List.mem_cons, ih, List.mem_cons]
        tauto
      · simp only [List.mem_cons]

/-- Stable insertion preserves sortedness by check-in. -/
theorem insertByCheckIn_pairwise {b : RB} :
    ∀ {l : List RB}, l.Pairwise (fun a c => a.checkIn ≤ c.checkIn) →
    (insertByCheckIn b l).Pairwise (fun a c => a.checkIn ≤ c.checkIn) := by
  intro l
  induction l with
  | nil => simp [insertByCheckIn]
  | cons x xs ih =>
      intro h
      rw [List.pairwise_cons] at h
      simp only [insertByCheckIn]
      split
      case isTrue hlt =>
        rw [List.pairwise_cons]
        refine ⟨?_, ih h.2⟩
        intro z hz
        rcases mem_insertByCheckIn.mp hz with rfl | hz'
        · exact le_of_lt hlt
        · exact h.1 z hz'
      case isFalse hlt =>
        rw [List.pairwise_cons]
        refine ⟨?_, List.pairwise_cons.mpr h⟩
        intro z hz
        rcases List.mem_cons.mp hz with rfl | hz'
        · exact not_lt.mp hlt
        · exact le_trans (not_lt.mp hlt) (h.1 z hz')

/-- The sort of `renderRoomRow` is sorted by check-in. -/
theorem sortByCheckIn_sorted (l : List RB) :
    (sortByCheckIn l).Pairwise (fun a c => a.checkIn ≤ c.checkIn) := by
  induction l with
  | nil => simp [sortByCheckIn]
  | cons x xs ih => exact insertByCheckIn_pairwise ih

/-- Inserting an element with a given check-in puts it in front of the
elements of the same check-in (the skipped ones are strictly earlier). -/
theorem filter_insertByCheckIn_of_key (b : RB) (c : Int) (hb : b.checkIn = c) :
    ∀ (l : List RB),
    (insertByCheckIn b l).filter (fun x => x.checkIn == c) =
      b :: l.filter (fun x => x.checkIn == c) := by
  intro l
  induction l with
  | nil => simp [insertByCheckIn, hb]
  | cons y ys ih =>
      simp only [insertByCheckIn]
      split
      case isTrue hlt =>
        have hy : (y.checkIn == c) = false := by
          simp only [beq_eq_false_iff_ne, ne_eq]
          omega
        simp only [List.filter_cons, hy, Bool.false_eq_true, if_false]
        exact ih
      case isFalse hlt =>
        simp [List.filter_cons, hb]

/-- Inserting an element with a different check-in leaves a key class
untouched. -/
theorem filter_insertByCheckIn_of_ne (b : RB) (c : Int) (hb : b.checkIn ≠ c) :
    ∀ (l : List RB),
    (insertByCheckIn b l).filter (fun x => x.checkIn == c) =
      l.filter (fun x => x.checkIn == c) := by
  intro l
  induction l with
  | nil => simp [insertByCheckIn, hb]
  | cons y ys ih =>
      simp only [insertByCheckIn]
      split
      · simp only [List.filter_cons]
        rw [ih]
      · simp [List.filter_cons, hb]

/-- The sort used by the layout pass is stable: each class of bookings
with equal check-in keeps its original input order. -/
theorem sortByCheckIn_stable (l : List RB) (c : Int) :
    (sortByCheckIn l).filter (fun x => x.checkIn == c) =
      l.filter (fun x => x.checkIn == c) := by
  induction l with
  | nil => simp [sortByCheckIn]
  | cons x xs ih =>
      simp only [sortByCheckIn]
      by_cases hx : x.checkIn = c
      · rw [filter_insertByCheckIn_of_key x c hx, ih, List.filter_cons,
          if_pos (by simpa using hx)]
      · rw [filter_insertByCheckIn_of_ne x c hx, ih, List.filter_cons,
          if_neg (by simpa using hx)]

/-- Inserting in front of a list whose check-ins are all at least the
new element's. -/
theorem insertByCheckIn_eq_cons (b : RB) (l : List RB)
    (h : ∀ z ∈ l, ¬ z.checkIn < b.checkIn) :
    insertByCheckIn b l = b :: l := by
  cases l with
  | nil => rfl
  | cons y ys =>
      simp only [insertByCheckIn]
      rw [if_neg (h y (List.mem_cons_self y ys))]

/-- Unfolding of the stable insertion past a strictly earlier head. -/
theorem insertByCheckIn_cons_of_lt {b y : RB} (ys : List RB)
    (h : y.checkIn < b.checkIn) :
    insertByCheckIn b (y :: ys) = y :: insertByCheckIn b ys := by
  simp [insertByCheckIn, h]

/-- Filtering commutes with stable insertion into a sorted list. -/
theorem filter_insertByCheckIn (p : RB → Bool) (b : RB) :
    ∀ (l : List RB), l.Pairwise (fun a c => a.checkIn ≤ c.checkIn) →
    (insertByCheckIn b l).filter p =
      if p b then insertByCheckIn b (l.filter p) else l.filter p := by
  intro l
  induction l with
  | nil =>
      intro _
      simp [insertByCheckIn, List.filter_cons]
  | cons y ys ih =>
      intro hsorted
      rw [List.pairwise_cons] at hsorted
      by_cases hlt : y.checkIn < b.checkIn
      · rw [insertByCheckIn_cons_of_lt ys hlt]
        simp only [List.filter_cons]
        rw [ih hsorted.2]
        by_cases hpy : p y
        · rw [if_pos hpy, if_pos hpy]
          by_cases hpb : p b
          · rw [if_pos hpb, if_pos hpb, insertByCheckIn_cons_of_lt _ hlt]
          · rw [if_neg hpb, if_neg hpb]
        · rw [if_neg hpy, if_neg hpy]
      · have hall : ∀ z ∈ (y :: ys).filter p, ¬ z.checkIn < b.checkIn := by
          intro z hz
          have hzmem : z ∈ y :: ys := List.mem_of_mem_filter hz
          rcases List.mem_cons.mp hzmem with rfl | hz'
          · exact hlt
          · intro hc
            exact hlt (lt_of_le_of_lt (hsorted.1 z hz') hc)
        rw [insertByCheckIn_eq_cons b (y :: ys)
            (by intro z hz
                rcases List.mem_cons.mp hz with rfl | hz'
                · exact hlt
                · intro hc
                  exact hlt (lt_of_le_of_lt (hsorted.1 z hz') hc)),
          List.filter_cons]
        by_cases hpb : p b
        · rw [if_pos hpb, if_pos hpb, insertByCheckIn_eq_cons b _ hall]
        · rw [if_neg hpb, if_neg hpb]

/-- Filtering commutes with the stable sort. -/
theorem sortByCheckIn_filter (p : RB → Bool) (l : List RB) :
    sortByCheckIn (l.filter p) = (sortByCheckIn l).filter p := by
  induction l with
  | nil => simp [sortByCheckIn]
  | cons x xs ih =>
      show sortByCheckIn ((x :: xs).filter p) =
        (insertByCheckIn x (sortByCheckIn xs)).filter p
      rw [filter_insertByCheckIn p x (sortByCheckIn xs) (sortByCheckIn_sorted xs),
        List.filter_cons]
      by_cases hpx : p x
      · rw [if_pos hpx, if_pos hpx]
        show insertByCheckIn x (sortByCheckIn (xs.filter p)) = _
        rw [ih]
      · rw [if_neg hpx, if_neg hpx]
        exact ih

/-- Bookings whose clip fails contribute nothing to the fold. -/
theorem foldl_layoutStep_filter_isSome (gs ge td : Int) :
    ∀ (l : List RB) (acc : List Int × List LayoutItem),
    (l.filter (fun b => (clipOffsets gs ge td b).isSome)).foldl
        (layoutStep gs ge td) acc =
      l.foldl (layoutStep gs ge td) acc := by
  intro l
  induction l with
  | nil => intro acc; rfl
  | cons b rest ih =>
      intro acc
      rw [List.filter_cons]
      rcases hclip : clipOffsets gs ge td b with _ | se
      · simp only [hclip, Option.isSome_none, Bool.false_eq_true, if_false,
          List.foldl_cons]
        rw [ih]
        congr 1
        simp [layoutStep, hclip]
      · simp only [hclip, Option.isSome_some, if_true, List.foldl_cons]
        exact ih _

/-- The invariant holds for the final state of the layout pass. -/
theorem renderRoomLayout_inv (bookings : List RB) (gs ge : Int) :
    ∃ m, LayoutInv (renderRoomLayout bookings gs ge).1
      (renderRoomLayout bookings gs ge).2 m :=
  foldl_layoutStep_inv gs (ge + msPerDay) (totalDaysOf gs ge)
    (sortByCheckIn bookings) [] [] 0 (layoutInv_init 0)
    (fun b _ => clippedStart_nonneg gs b) (sortByCheckIn_sorted bookings)

/-! ## Claim theorems -/

/-- C1: for every list of bookings for a room and every visible window,
the number of lanes used by the layout pass (the length of the
lane-end-offsets array) equals the maximum, over all day offsets, of the
number of emitted bookings whose `[startOffsetDays, startOffsetDays +
durationDays)` intervals cover that offset: no day offset is covered by
more bars than there are lanes, and some day offset is covered by
exactly as many bars as there are lanes. -/
theorem C1_lane_count_minimal (bookings : List RB) (gs ge : Int) :
    (∀ p : Int, overlapAt (renderRoomLayout bookings gs ge).2 p ≤
      (renderRoomLayout bookings gs ge).1.length) ∧
    (∃ p : Int, overlapAt (renderRoomLayout bookings gs ge).2 p =
      (renderRoomLayout bookings gs ge).1.length) := by
  obtain ⟨m, inv⟩ := renderRoomLayout_inv bookings gs ge
  exact ⟨fun p => overlap_le_of_inv inv.laneLt inv.disj p, inv.reach⟩

/-- C2: any two bookings that the layout pass assigns the same lane
index have non-intersecting half-open `[startOffsetDays,
startOffsetDays + durationDays)` intervals: no day offset lies in
both. -/
theorem C2_same_lane_no_overlap (bookings : List RB) (gs ge : Int) :
    ((renderRoomLayout bookings gs ge).2).Pairwise
      (fun a b => a.laneIndex = b.laneIndex →
        ∀ p : Int, ¬ (coversDay a p = true ∧ coversDay b p = true)) := by
  obtain ⟨m, inv⟩ := renderRoomLayout_inv bookings gs ge
  refine inv.disj.imp ?_
  intro a b hab hlane p hcov
  have ha : a.startOffset ≤ p ∧ p < itemEnd a := by
    simpa [coversDay] using hcov.1
  have hb : b.startOffset ≤ p ∧ p < itemEnd b := by
    simpa [coversDay] using hcov.2
  rcases hab hlane with h | h
  · exact absurd (ha.2.trans_le (h.trans hb.1)) (lt_irrefl p)
  · exact absurd (hb.2.trans_le (h.trans ha.1)) (lt_irrefl p)

/-- C3: with window start 2024-01-01 (window end 2024-01-31), booking A
`[2024-01-01, 2024-01-10)` and booking B `[2024-01-10, 2024-01-15)` are
adjacent, not overlapping: both are assigned lane 0, with start offsets
0 and 9 and durations 9 and 5 (epoch-millisecond inputs). -/
theorem C3_adjacent_bookings_share_lane :
    renderRoomLayout
      [⟨1, 1704067200000, 1704844800000⟩, ⟨2, 1704844800000, 1705276800000⟩]
      1704067200000 1706659200000 =
    ([14], [⟨1, 0, 9, 0⟩, ⟨2, 9, 5, 0⟩]) := by decide

/-- C4: clipping a booking `[2024-01-01, 2024-01-05)` against the window
`[2024-01-03, 2024-01-31]` clamps its start offset to 0 and its duration
to 2 (epoch-millisecond inputs). -/
theorem C4_window_clipping :
    renderRoomLayout [⟨7, 1704067200000, 1704412800000⟩]
      1704240000000 1706659200000 =
    ([2], [⟨7, 0, 2, 0⟩]) := by decide

/-- C5: a booking whose clipped interval is empty or inverted — one with
`endDate ≤ startDate`, one entirely before the window start, or one
entirely after the window end — is dropped: its clip returns `none`, the
fold step leaves both the lane array and the output untouched, and the
whole layout output is unchanged when all such bookings are removed up
front. -/
theorem C5_dropped_bookings_absent (gs ge : Int) (bookings : List RB) (b : RB)
    (h : b.checkOut ≤ b.checkIn ∨ b.checkOut ≤ gs ∨ ge + msPerDay ≤ b.checkIn) :
    clipOffsets gs (ge + msPerDay) (totalDaysOf gs ge) b = none ∧
    (∀ acc : List Int × List LayoutItem,
      layoutStep gs (ge + msPerDay) (totalDaysOf gs ge) acc b = acc) ∧
    renderRoomLayout
      (bookings.filter
        (fun x => (clipOffsets gs (ge + msPerDay) (totalDaysOf gs ge) x).isSome))
      gs ge = renderRoomLayout bookings gs ge := by
  have hclip : clipOffsets gs (ge + msPerDay) (totalDaysOf gs ge) b = none := by
    unfold clipOffsets
    dsimp only
    rw [if_pos]
    rcases h with h | h | h
    · calc min b.checkOut (ge + msPerDay) ≤ b.checkOut := min_le_left _ _
        _ ≤ b.checkIn := h
        _ ≤ max b.checkIn gs := le_max_left _ _
    · calc min b.checkOut (ge + msPerDay) ≤ b.checkOut := min_le_left _ _
        _ ≤ gs := h
        _ ≤ max b.checkIn gs := le_max_right _ _
    · calc min b.checkOut (ge + msPerDay) ≤ ge + msPerDay := min_le_right _ _
        _ ≤ b.checkIn := h
        _ ≤ max b.checkIn gs := le_max_left _ _
  refine ⟨hclip, ?_, ?_⟩
  · intro acc
    simp [layoutStep, hclip]
  · show (sortByCheckIn _).foldl _ ([], []) = (sortByCheckIn bookings).foldl _ ([], [])
    rw [sortByCheckIn_filter]
    exact foldl_layoutStep_filter_isSome gs (ge + msPerDay) (totalDaysOf gs ge)
      (sortByCheckIn bookings) ([], [])

/-- C5 witness: a booking lying entirely before the window start is
dropped by the layout pass. -/
theorem C5_witness :
    clipOffsets 1704240000000 (1706659200000 + msPerDay)
      (totalDaysOf 1704240000000 1706659200000) ⟨9, 1703980800000, 1704153600000⟩ = none ∧
    (∀ acc : List Int × List LayoutItem,
      layoutStep 1704240000000 (1706659200000 + msPerDay)
        (totalDaysOf 1704240000000 1706659200000) acc ⟨9, 1703980800000, 1704153600000⟩ = acc) ∧
    renderRoomLayout
      ([⟨9, 1703980800000, 1704153600000⟩].filter
        (fun x => (clipOffsets 1704240000000 (1706659200000 + msPerDay)
          (totalDaysOf 1704240000000 1706659200000) x).isSome))
      1704240000000 1706659200000 =
      renderRoomLayout [⟨9, 1703980800000, 1704153600000⟩] 1704240000000 1706659200000 :=
  C5_dropped_bookings_absent 1704240000000 1706659200000
    [⟨9, 1703980800000, 1704153600000⟩] ⟨9, 1703980800000, 1704153600000⟩
    (Or.inr (Or.inl (by decide)))

/-- C8: the layout pass is a pure, deterministic function of the booking
list, the window, and the day width — identical inputs give identical
geometry — and the sort it uses is stable: its output is sorted by
check-in and every class of bookings with equal check-in keeps its
original input order (ties broken by original position). -/
theorem C8_layout_deterministic_stable (bs bs' : List RB)
    (gs gs' ge ge' w w' : Int)
    (h1 : bs = bs') (h2 : gs = gs') (h3 : ge = ge') (h4 : w = w') :
    renderBars bs gs ge w = renderBars bs' gs' ge' w' ∧
    (sortByCheckIn bs).Pairwise (fun a c => a.checkIn ≤ c.checkIn) ∧
    ∀ c : Int, (sortByCheckIn bs).filter (fun x => x.checkIn == c) =
      bs.filter (fun x => x.checkIn == c) := by
  subst h1
  subst h2
  subst h3
  subst h4
  exact ⟨rfl, sortByCheckIn_sorted bs, fun c => sortByCheckIn_stable bs c⟩

/-- C8 witness: two bookings tied on check-in keep their input order
through the layout pass, and repeated invocation agrees. -/
theorem C8_witness :
    renderBars [⟨1, 0, 86400000⟩, ⟨2, 0, 86400000⟩] 0 (30 * 86400000) 40 =
      renderBars [⟨1, 0, 86400000⟩, ⟨2, 0, 86400000⟩] 0 (30 * 86400000) 40 ∧
    (sortByCheckIn [⟨1, 0, 86400000⟩, ⟨2, 0, 86400000⟩]).Pairwise
      (fun a c => a.checkIn ≤ c.checkIn) ∧
    ∀ c : Int,
      (sortByCheckIn [⟨1, 0, 86400000⟩, ⟨2, 0, 86400000⟩]).filter
        (fun x => x.checkIn == c) =
      [⟨1, 0, 86400000⟩, ⟨2, 0, 86400000⟩].filter (fun x => x.checkIn == c) :=
  C8_layout_deterministic_stable _ _ _ _ _ _ _ _ rfl rfl rfl rfl

/-- Helper: `a || b` on strings is non-empty whenever `b` is. -/
theorem jsOr_ne_nil {a b : List Char} (h : b ≠ []) : jsOr a b ≠ [] := by
  unfold jsOr
  split
  case isTrue => exact h
  case isFalse ha => exact ha

/-- C6: the claim asserts all three date-parsing entry points pin
date-only strings at noon UTC, independent of the environment timezone.
`Beds24API.parseDate` and `BookingCalendar.parseIsoDate` do (first two
conjuncts, and their displayed date is stable across moderate offsets),
but the ICS module's `parseICSDate` builds date-only values at **local
midnight**: its epoch value depends on the environment offset, and the
value parsed in a UTC+13 environment displays as March 14 in a UTC
environment instead of March 15. -/
theorem C6_ics_date_not_noon_utc :
    parseDateB24 ("2024-03-15".toList) = some (utcEpoch 2024 3 15 12 0 0) ∧
    parseIsoDate ("2024-03-15".toList) = some (utcEpoch 2024 3 15 12 0 0) ∧
    displayedDate 0 (utcEpoch 2024 3 15 12 0 0) = (2024, 3, 15) ∧
    displayedDate 660 (utcEpoch 2024 3 15 12 0 0) = (2024, 3, 15) ∧
    parseICSDate 0 ("20240315".toList) = some (utcEpoch 2024 3 15 0 0 0) ∧
    parseICSDate (-780) ("20240315".toList) ≠ parseICSDate 0 ("20240315".toList) ∧
    displayedDate 0 ((parseICSDate (-780) ("20240315".toList)).getD 0) =
      (2024, 3, 14) := by
  decide

/-- C7: `Beds24API.determineSource` is total and deterministic with a
non-empty result for every record; a record whose channel is `direct`
with no platform keywords classifies as `direct`, and a record with
empty source, referer and channel also classifies as `direct`. -/
theorem C7_source_classification_total (b : RawSourceFields) :
    determineSourceB24 b ≠ [] ∧
    determineSourceB24 ⟨[], 'd' :: 'i' :: 'r' :: 'e' :: 'c' :: 't' :: [], [], []⟩ =
      'd' :: 'i' :: 'r' :: 'e' :: 'c' :: 't' :: [] ∧
    determineSourceB24 ⟨[], [], [], []⟩ =
      'd' :: 'i' :: 'r' :: 'e' :: 'c' :: 't' :: [] := by
  refine ⟨?_, by decide, by decide⟩
  unfold determineSourceB24
  dsimp only
  split
  · simp
  split
  · simp
  split
  · simp
  split
  · simp
  · exact jsOr_ne_nil (jsOr_ne_nil (by simp))

/-- C9: at most one booking is selected at a time (the render-time check
either clears the selection or leaves the single selected id unchanged),
and a selected id that is no longer present in the filtered booking set
is silently cleared to `null`. -/
theorem C9_stale_selection_cleared (filt : List Char) (bs : List FBooking)
    (s : List Char) (hs : s ≠ [])
    (habsent : ∀ b ∈ getFilteredBookings filt bs, b.id ≠ s) :
    updateSelection (some s) filt bs = none ∧
    ∀ sel : Option (List Char),
      updateSelection sel filt bs = none ∨ updateSelection sel filt bs = sel := by
  have hcond : s ≠ [] ∧
      ¬ ((getFilteredBookings filt bs).any (fun b => b.id == s) = true) := by
    refine ⟨hs, fun hany => ?_⟩
    obtain ⟨b, hb, hbeq⟩ := List.any_eq_true.mp hany
    exact habsent b hb (by simpa using hbeq)
  constructor
  · simp only [updateSelection]
    rw [if_pos hcond]
  · intro sel
    cases sel with
    | none => exact Or.inl rfl
    | some t =>
        simp only [updateSelection]
        by_cases hc : t ≠ [] ∧
          ¬ ((getFilteredBookings filt bs).any (fun b => b.id == t) = true)
        · exact Or.inl (if_pos hc)
        · exact Or.inr (if_neg hc)

/-- C9 witness: a selected id absent from the filtered set is cleared. -/
theorem C9_witness :
    updateSelection (some ('b' :: '1' :: [])) ('a' :: 'l' :: 'l' :: [])
      [⟨'b' :: '2' :: [], []⟩] = none ∧
    ∀ sel : Option (List Char),
      updateSelection sel ('a' :: 'l' :: 'l' :: []) [⟨'b' :: '2' :: [], []⟩] = none ∨
      updateSelection sel ('a' :: 'l' :: 'l' :: []) [⟨'b' :: '2' :: [], []⟩] = sel :=
  C9_stale_selection_cleared ('a' :: 'l' :: 'l' :: []) [⟨'b' :: '2' :: [], []⟩]
    ('b' :: '1' :: []) (by decide) (by decide)

/-- C10: the ICS module's `determineSource` returns only `airbnb` or
`booking`, and defaults to `airbnb` when neither keyword occurs in the
summary, description or uid. -/
theorem C10_ics_source_closed_set (e : ICSEvent) :
    (determineSourceICS e = 'a' :: 'i' :: 'r' :: 'b' :: 'n' :: 'b' :: [] ∨
     determineSourceICS e = 'b' :: 'o' :: 'o' :: 'k' :: 'i' :: 'n' :: 'g' :: []) ∧
    ((hasSeg ('a' :: 'i' :: 'r' :: 'b' :: 'n' :: 'b' :: []) (toLowerStr e.summary) = false ∧
      hasSeg ('a' :: 'i' :: 'r' :: 'b' :: 'n' :: 'b' :: []) (toLowerStr e.description) = false ∧
      hasSeg ('a' :: 'i' :: 'r' :: 'b' :: 'n' :: 'b' :: []) (toLowerStr e.uid) = false ∧
      hasSeg ('b' :: 'o' :: 'o' :: 'k' :: 'i' :: 'n' :: 'g' :: []) (toLowerStr e.summary) = false ∧
      hasSeg ('b' :: 'o' :: 'o' :: 'k' :: 'i' :: 'n' :: 'g' :: []) (toLowerStr e.description) = false ∧
      hasSeg ('b' :: 'o' :: 'o' :: 'k' :: 'i' :: 'n' :: 'g' :: []) (toLowerStr e.uid) = false) →
      determineSourceICS e = 'a' :: 'i' :: 'r' :: 'b' :: 'n' :: 'b' :: []) := by
  constructor
  · unfold determineSourceICS
    dsimp only
    split
    · exact Or.inl rfl
    split
    · exact Or.inr rfl
    · exact Or.inl rfl
  · intro h
    obtain ⟨h1, h2, h3, h4, h5, h6⟩ := h
    unfold determineSourceICS
    dsimp only
    rw [if_neg (by rw [h1, h2, h3]; simp), if_neg (by rw [h4, h5, h6]; simp)]

/-- C10 witness: an event with no recognizable keyword defaults to
`airbnb`. -/
theorem C10_witness :
    determineSourceICS ⟨[], [], []⟩ = 'a' :: 'i' :: 'r' :: 'b' :: 'n' :: 'b' :: [] :=
  (C10_ics_source_closed_set ⟨[], [], []⟩).2 (by decide)

end BookingApp
